import Mathlib

/-!
Verification of the `ts-backed-enum` library (src/index.ts).

The library turns a name→value mapping (a TypeScript enum's dictionary form)
into a collection of singleton case objects with an ordered `cases` list,
a value→case reverse index (a JS `Map`), one named accessor per case name,
a guarded reverse lookup `from`, and a `values()` projection.

Shallow embedding notes:
* Backing primitives (TS `string | number`) are modelled by `Value`; numbers
  are modelled as integers, which covers every comparison the library performs
  (values are only stored and tested for exact equality, never computed with).
* Object reference identity (`===`) is modelled by giving each constructed
  `CaseInstance` a fresh allocation index `id`: within one collection two
  instances are the same JS object exactly when their Lean records are equal.
* The JS `Map` is modelled as an association list whose `set` replaces an
  existing binding in place or appends, and whose `get` takes the current
  binding — exactly the observable behaviour of `Map.set`/`Map.get`.
* `Object.defineProperty(this, key, {value: instance, enumerable: true})` is
  modelled by the `props` association list; `Object.keys(baseEnum)` together
  with `baseEnum[key]` is modelled by a list of entries in the object's JS
  iteration order (JS object keys are unique; where a proof needs that fact
  it takes the `Nodup` hypothesis explicitly).
-/

namespace TsBackedEnum

/-- A TS backing primitive: `string | number`. -/
inductive Value where
  | str : String → Value
  | num : Int → Value
deriving DecidableEq, Repr

/-- One enum member: `EnumCase` from src/index.ts, `constructor(name, value)`.
`id` is the allocation index modelling JS object identity (`===`). -/
structure CaseInstance where
  id : Nat
  name : String
  value : Value
deriving DecidableEq, Repr

/-- `EnumCase.toString(): return String(this.value)`. -/
def CaseInstance.toString (c : CaseInstance) : String :=
  match c.value with
  | .str s => s
  | .num n => ToString.toString n

/-- An `EnumLike` dictionary, as a list of its entries in JS iteration order. -/
abbrev EnumDef := List (String × Value)

/-! ### The host predicate `isNaN(Number(key))`

`createBackedEnum` filters keys with `isNaN(Number(key))`. `Number` and
`isNaN` are JS host builtins; they are modelled here after ECMA-262's
StringNumericLiteral grammar: trimmed-empty and well-formed numeric literals
(decimal with optional sign/fraction/exponent, `Infinity`, and unsigned
hex/octal/binary) convert to non-NaN numbers, everything else to NaN. -/

/-- JS StrWhiteSpace characters (the ones with a fixed code point). -/
def jsWhitespace (c : Char) : Bool :=
  c.toNat == 9 || c.toNat == 10 || c.toNat == 11 || c.toNat == 12 ||
  c.toNat == 13 || c.toNat == 32 || c.toNat == 160 ||
  c.toNat == 0x2028 || c.toNat == 0x2029 || c.toNat == 0xFEFF

/-- Strip leading and trailing JS whitespace. -/
def jsTrim (l : List Char) : List Char :=
  ((l.dropWhile jsWhitespace).reverse.dropWhile jsWhitespace).reverse

/-- Optional ExponentPart: empty, or `e`/`E`, optional sign, then digits. -/
def isExpTail (l : List Char) : Bool :=
  match l with
  | [] => true
  | c :: rest =>
    (c == 'e' || c == 'E') &&
    (match rest with
     | [] => false
     | s :: ds =>
       if s == '+' || s == '-' then !ds.isEmpty && ds.all (·.isDigit)
       else rest.all (·.isDigit))

/-- StrUnsignedDecimalLiteral: `Infinity`, `digits [. digits] [exp]`, or
`. digits [exp]`. -/
def isUnsignedDecimal (l : List Char) : Bool :=
  if l == "Infinity".toList then true
  else if l.head? == some '.' then
    let rest := l.tail
    !(rest.takeWhile (·.isDigit)).isEmpty && isExpTail (rest.dropWhile (·.isDigit))
  else
    let ds := l.takeWhile (·.isDigit)
    let tail := l.dropWhile (·.isDigit)
    !ds.isEmpty &&
      (if tail.head? == some '.' then
        isExpTail (tail.tail.dropWhile (·.isDigit))
      else isExpTail tail)

/-- NonDecimalIntegerLiteral: `0x`/`0o`/`0b` with at least one digit, no sign. -/
def isNonDecimalInt (l : List Char) : Bool :=
  match l with
  | z :: p :: rest =>
    z == '0' && !rest.isEmpty &&
    ((p == 'x' || p == 'X') && rest.all (fun c => c.isDigit ||
        ('a' ≤ c && c ≤ 'f') || ('A' ≤ c && c ≤ 'F')) ||
     (p == 'o' || p == 'O') && rest.all (fun c => '0' ≤ c && c ≤ '7') ||
     (p == 'b' || p == 'B') && rest.all (fun c => c == '0' || c == '1'))
  | _ => false

/-- StrNumericLiteral: a non-decimal integer literal, or an optionally signed
unsigned-decimal literal. -/
def isStrNumericLiteral (l : List Char) : Bool :=
  isNonDecimalInt l ||
  (match l with
   | [] => false
   | s :: rest =>
     if s == '+' || s == '-' then isUnsignedDecimal rest else isUnsignedDecimal l)

/-- The filter predicate `isNaN(Number(key))` from
`Object.keys(baseEnum).filter((key) => isNaN(Number(key)))`:
true when `Number(key)` is NaN (the key is kept). -/
def keyIsNaN (s : String) : Bool :=
  let t := jsTrim s.toList
  !(t.isEmpty || isStrNumericLiteral t)

/-! ### The JS `Map` used as reverse index -/

/-- `Map.set(k, c)`: replace the current binding of `k` in place, or append. -/
def mapSet (m : List (Value × CaseInstance)) (k : Value) (c : CaseInstance) :
    List (Value × CaseInstance) :=
  match m with
  | [] => [(k, c)]
  | (k', c') :: rest => if k' = k then (k, c) :: rest else (k', c') :: mapSet rest k c

/-- `Map.get(k)`: the current binding of `k`, if any. -/
def mapGet (m : List (Value × CaseInstance)) (k : Value) : Option CaseInstance :=
  match m with
  | [] => none
  | (k', c') :: rest => if k' = k then some c' else mapGet rest k

/-! ### The `BackedEnum` collection -/

/-- The state built by `BackedEnum`'s constructor: the `cases` array, the
private reverse-index `map`, and the properties defined on `this`. -/
structure BackedEnum where
  cases : List CaseInstance
  map : List (Value × CaseInstance)
  props : List (String × CaseInstance)
deriving DecidableEq, Repr

/-- The named accessor `collection[k]` installed by `Object.defineProperty`. -/
def BackedEnum.prop (e : BackedEnum) (k : String) : Option CaseInstance :=
  e.props.lookup k

/-- The filtered entries: `Object.keys(baseEnum).filter((key) => isNaN(Number(key)))`
paired with `baseEnum[key]` (exact because JS object keys are unique). -/
def filteredEntries (d : EnumDef) : EnumDef :=
  d.filter (fun kv => keyIsNaN kv.1)

/-- The constructor loop: for each remaining key in order, build
`new CaseClass(key, value)` (allocation index `i` models object identity),
push it on `cases`, `map.set(value, instance)`, and define the named property. -/
def buildLoop : EnumDef → Nat → BackedEnum → BackedEnum
  | [], _, st => st
  | (k, v) :: rest, i, st =>
    buildLoop rest (i + 1)
      { cases := st.cases ++ [⟨i, k, v⟩],
        map := mapSet st.map v ⟨i, k, v⟩,
        props := st.props ++ [(k, ⟨i, k, v⟩)] }

/-- `createBackedEnum(baseEnum)`: filter the keys, then run the constructor. -/
def createBackedEnum (d : EnumDef) : BackedEnum :=
  buildLoop (filteredEntries d) 0 ⟨[], [], []⟩

/-! ### `from`, `values`, and the dist build's `from` -/

/-- A runtime value passed to `from(value: unknown)`. `inst` is an object
passing `value instanceof CaseClass`; `prim` has `typeof` string/number;
the remaining constructors cover every other runtime kind. -/
inductive Candidate where
  | inst : CaseInstance → Candidate
  | prim : Value → Candidate
  | nullV : Candidate
  | undef : Candidate
  | objV : Candidate
  | funcV : Candidate
  | boolV : Bool → Candidate
deriving DecidableEq, Repr

/-- `typeof value` is neither "string" nor "number" nor an instance of the
case class: the inputs `from` rejects up front. -/
def Candidate.isOtherKind : Candidate → Bool
  | .inst _ => false
  | .prim _ => false
  | _ => true

/-- `BackedEnum.from` (src/index.ts): if `value instanceof CaseClass`,
recurse on `value.value`; if `typeof value` is neither string nor number,
return undefined; otherwise `map.get(value)`. Total — a miss is `none`,
never an exception. -/
def BackedEnum.lookupFrom (e : BackedEnum) : Candidate → Option CaseInstance
  | .inst c => e.lookupFrom (.prim c.value)
  | .prim v => mapGet e.map v
  | _ => none
termination_by c => sizeOf c
decreasing_by
  rename_i c
  cases c
  simp

/-- `BackedEnum.from` of the compiled build dist/index.js:
`return this.map.get(value)` with no instance check and no typeof guard.
The map's keys are backing primitives, and `Map.get` compares keys with
SameValueZero, so a candidate that is not a string/number primitive matches
no key: only `prim` can hit. -/
def BackedEnum.lookupFromDist (e : BackedEnum) : Candidate → Option CaseInstance
  | .prim v => mapGet e.map v
  | _ => none

/-- `values(): return this.cases.map((_case) => _case.value)`. -/
def BackedEnum.values (e : BackedEnum) : List Value :=
  e.cases.map (fun c => c.value)

/-! ### Characterizing the constructor loop -/

/-- The instances the constructor loop allocates for entries `l`, the first one
receiving allocation index `i`. -/
def mkCases : Nat → EnumDef → List CaseInstance
  | _, [] => []
  | i, (k, v) :: rest => ⟨i, k, v⟩ :: mkCases (i + 1) rest

/-- First-biased choice, the shape `mapGet` takes after a fold of `mapSet`s. -/
def optOr {α : Type} (a b : Option α) : Option α :=
  match a with
  | some c => some c
  | none => b

theorem lookupFrom_inst (e : BackedEnum) (c : CaseInstance) :
    e.lookupFrom (.inst c) = e.lookupFrom (.prim c.value) := by
  simp [BackedEnum.lookupFrom]

theorem lookupFrom_prim (e : BackedEnum) (v : Value) :
    e.lookupFrom (.prim v) = mapGet e.map v := by
  simp [BackedEnum.lookupFrom]

theorem lookupFrom_other (e : BackedEnum) (c : Candidate) (h : c.isOtherKind = true) :
    e.lookupFrom c = none := by
  cases c <;> simp_all [BackedEnum.lookupFrom, Candidate.isOtherKind]

theorem buildLoop_cases (l : EnumDef) (i : Nat) (st : BackedEnum) :
    (buildLoop l i st).cases = st.cases ++ mkCases i l := by
  induction l generalizing i st with
  | nil => simp [buildLoop, mkCases]
  | cons kv rest ih => cases kv; simp [buildLoop, mkCases, ih]

theorem buildLoop_props (l : EnumDef) (i : Nat) (st : BackedEnum) :
    (buildLoop l i st).props = st.props ++ (mkCases i l).map (fun c => (c.name, c)) := by
  induction l generalizing i st with
  | nil => simp [buildLoop, mkCases]
  | cons kv rest ih => cases kv; simp [buildLoop, mkCases, ih]

theorem buildLoop_map (l : EnumDef) (i : Nat) (st : BackedEnum) :
    (buildLoop l i st).map =
      (mkCases i l).foldl (fun m c => mapSet m c.value c) st.map := by
  induction l generalizing i st with
  | nil => simp [buildLoop, mkCases]
  | cons kv rest ih => cases kv; simp [buildLoop, mkCases, ih]

theorem mapGet_mapSet (m : List (Value × CaseInstance)) (k : Value) (c : CaseInstance)
    (v : Value) : mapGet (mapSet m k c) v = if k = v then some c else mapGet m v := by
  induction m with
  | nil => simp [mapSet, mapGet]
  | cons kc rest ih =>
    obtain ⟨k', c'⟩ := kc
    by_cases hk : k' = k <;> by_cases hv : k' = v <;>
      simp_all [mapSet, mapGet, eq_comm]

theorem mapGet_foldl (cs : List CaseInstance) (m : List (Value × CaseInstance)) (v : Value) :
    mapGet (cs.foldl (fun m c => mapSet m c.value c) m) v =
      optOr (cs.reverse.find? (fun c => c.value == v)) (mapGet m v) := by
  induction cs generalizing m with
  | nil => simp [optOr]
  | cons c rest ih =>
    simp only [List.foldl_cons, List.reverse_cons, List.find?_append, ih, mapGet_mapSet]
    cases hf : rest.reverse.find? (fun c => c.value == v) with
    | some c' => simp [optOr]
    | none =>
      by_cases hv : c.value = v
      · simp [optOr, List.find?, hv]
      · have hb : (c.value == v) = false := by simp [hv]
        simp only [optOr, List.find?, hb, mapGet_mapSet]
        exact if_neg hv

theorem createBackedEnum_cases (d : EnumDef) :
    (createBackedEnum d).cases = mkCases 0 (filteredEntries d) := by
  simp [createBackedEnum, buildLoop_cases]

theorem createBackedEnum_props (d : EnumDef) :
    (createBackedEnum d).props =
      (createBackedEnum d).cases.map (fun c => (c.name, c)) := by
  simp [createBackedEnum, buildLoop_props, buildLoop_cases]

theorem createBackedEnum_mapGet (d : EnumDef) (v : Value) :
    mapGet (createBackedEnum d).map v =
      (createBackedEnum d).cases.reverse.find? (fun c => c.value == v) := by
  have h : (createBackedEnum d).map =
      (mkCases 0 (filteredEntries d)).foldl (fun m c => mapSet m c.value c) [] := by
    simp [createBackedEnum, buildLoop_map]
  rw [h, mapGet_foldl, createBackedEnum_cases]
  cases (mkCases 0 (filteredEntries d)).reverse.find? (fun c => c.value == v) <;>
    simp [optOr, mapGet]

theorem mkCases_names (i : Nat) (l : EnumDef) :
    (mkCases i l).map (fun c => c.name) = l.map Prod.fst := by
  induction l generalizing i with
  | nil => simp [mkCases]
  | cons kv rest ih => cases kv; simp [mkCases, ih]

theorem mkCases_values (i : Nat) (l : EnumDef) :
    (mkCases i l).map (fun c => c.value) = l.map Prod.snd := by
  induction l generalizing i with
  | nil => simp [mkCases]
  | cons kv rest ih => cases kv; simp [mkCases, ih]

theorem mkCases_length (i : Nat) (l : EnumDef) : (mkCases i l).length = l.length := by
  induction l generalizing i with
  | nil => simp [mkCases]
  | cons kv rest ih => cases kv; simp [mkCases, ih]

theorem mkCases_getElem? (i j : Nat) (l : EnumDef) :
    (mkCases i l)[j]? = l[j]?.map (fun kv => ⟨i + j, kv.1, kv.2⟩) := by
  induction l generalizing i j with
  | nil => simp [mkCases]
  | cons kv rest ih =>
    cases kv
    cases j with
    | zero => simp [mkCases]
    | succ j' =>
      simp only [mkCases, List.getElem?_cons_succ, ih]
      have : i + (j' + 1) = i + 1 + j' := by omega
      rw [this]

theorem lookup_map_name (cs : List CaseInstance) (k : String) :
    (cs.map (fun c => (c.name, c))).lookup k = cs.find? (fun c => c.name == k) := by
  induction cs with
  | nil => rfl
  | cons c rest ih =>
    by_cases h : c.name = k
    · simp [List.lookup, List.find?, h]
    · have h1 : (k == c.name) = false := by simp [Ne.symm h]
      have h2 : (c.name == k) = false := by simp [h]
      simp [List.lookup, List.find?, h1, h2, ih]

theorem find?_eq_some_of_unique {α : Type} (p : α → Bool) (l : List α) (c : α)
    (hc : c ∈ l) (hp : p c = true) (huniq : ∀ x ∈ l, p x = true → x = c) :
    l.find? p = some c := by
  induction l with
  | nil => cases hc
  | cons h rest ih =>
    by_cases hh : p h = true
    · have hhc : h = c := huniq h (by simp) hh
      simp [List.find?, hh, hhc, hp]
    · have hh' : p h = false := by simpa using hh
      have hcr : c ∈ rest := by
        rcases List.mem_cons.mp hc with rfl | hm
        · rw [hp] at hh'; cases hh'
        · exact hm
      simp only [List.find?, hh']
      exact ih hcr (fun x hx hpx => huniq x (List.mem_cons_of_mem _ hx) hpx)

theorem prop_eq_find (d : EnumDef) (k : String) :
    (createBackedEnum d).prop k =
      (createBackedEnum d).cases.find? (fun c => c.name == k) := by
  rw [BackedEnum.prop, createBackedEnum_props, lookup_map_name]

theorem cases_names_nodup (d : EnumDef) (hnd : (d.map Prod.fst).Nodup) :
    ((createBackedEnum d).cases.map (fun c => c.name)).Nodup := by
  rw [createBackedEnum_cases, mkCases_names]
  exact List.Nodup.sublist (List.Sublist.map Prod.fst (List.filter_sublist d)) hnd

/-- With unique case names, the named accessor of `c.name` is `c` itself. -/
theorem prop_name_self (d : EnumDef) (hnd : (d.map Prod.fst).Nodup) (c : CaseInstance)
    (hc : c ∈ (createBackedEnum d).cases) :
    (createBackedEnum d).prop c.name = some c := by
  rw [prop_eq_find]
  apply find?_eq_some_of_unique _ _ c hc (by simp)
  intro x hx hpx
  exact List.inj_on_of_nodup_map (cases_names_nodup d hnd) hx hc (by simpa using hpx)

/-- With a unique backing value, the reverse index binds `c.value` to `c`. -/
theorem mapGet_value_self (d : EnumDef) (c : CaseInstance)
    (hc : c ∈ (createBackedEnum d).cases)
    (huniq : ∀ x ∈ (createBackedEnum d).cases, x.value = c.value → x = c) :
    mapGet (createBackedEnum d).map c.value = some c := by
  rw [createBackedEnum_mapGet]
  apply find?_eq_some_of_unique _ _ c (by simpa using hc) (by simp)
  intro x hx hpx
  exact huniq x (by simpa using hx) (by simpa using hpx)

theorem filteredEntries_map_fst (d : EnumDef) :
    (filteredEntries d).map Prod.fst = (d.map Prod.fst).filter keyIsNaN := by
  induction d with
  | nil => rfl
  | cons kv rest ih =>
    by_cases h : keyIsNaN kv.1 <;> simp_all [filteredEntries, List.filter]

/-- The names of the built cases are exactly the filtered keys. -/
theorem cases_names_eq_filtered (d : EnumDef) :
    (createBackedEnum d).cases.map (fun c => c.name) =
      (d.map Prod.fst).filter keyIsNaN := by
  rw [createBackedEnum_cases, mkCases_names, filteredEntries_map_fst]

/-! ### Concrete enum definitions used as witnesses and counterexamples

`roleDef` is the dictionary form of the numeric enum `RoleEnum` from the
repository's tests, in JS iteration order (integer-like keys first — these
are the synthetic reverse entries); `statusDef` is the string enum
`StatusEnum`; `dupDef` has two case-names sharing one backing value. -/

def roleDef : EnumDef :=
  [("1", .str "ADMIN"), ("2", .str "USER"), ("3", .str "GUEST"),
   ("ADMIN", .num 1), ("USER", .num 2), ("GUEST", .num 3)]

def statusDef : EnumDef :=
  [("PENDING", .str "pending"), ("ACTIVE", .str "active"),
   ("ARCHIVED", .str "archived")]

def dupDef : EnumDef := [("A", .num 1), ("B", .num 1)]

/-! ### Claims -/

/-- C1, counterexample: in the collection built from `{A: 1, B: 1}` the
case-name `A` does not have all access paths agree — the named accessor and
`cases[0]` are the `A` instance, but `from(collection.A.value) = from(1)`
returns the `B` instance (last-write-wins in the reverse index), a different
object. -/
theorem claim_C1_counterexample :
    (createBackedEnum dupDef).prop "A" = some ⟨0, "A", .num 1⟩ ∧
    (createBackedEnum dupDef).cases[0]? = some ⟨0, "A", .num 1⟩ ∧
    (createBackedEnum dupDef).lookupFrom (.prim (.num 1)) = some ⟨1, "B", .num 1⟩ ∧
    (⟨1, "B", .num 1⟩ : CaseInstance) ≠ ⟨0, "A", .num 1⟩ := by
  refine ⟨by decide, by decide, ?_, by decide⟩
  rw [lookupFrom_prim]
  decide

/-- C1, amended: for every case-name `k` of a built collection (with the JS
guarantee of unique keys), the named accessor `collection[k]` and the element
`collection.cases[i]` at `k`'s filtered position are the identical object —
unconditionally, so in particular both cases of a duplicated backing value
stay reachable this way; and, provided no other case shares that instance's
backing value, `collection.from(collection[k].value)` is that same object as
well. -/
theorem claim_C1_identity (d : EnumDef) (hnd : (d.map Prod.fst).Nodup)
    (i : Nat) (c : CaseInstance) (hi : (createBackedEnum d).cases[i]? = some c) :
    (createBackedEnum d).prop c.name = some c ∧
    ((∀ x ∈ (createBackedEnum d).cases, x.value = c.value → x = c) →
      (createBackedEnum d).lookupFrom (.prim c.value) = some c) := by
  have hc : c ∈ (createBackedEnum d).cases := by
    obtain ⟨hlen, hget⟩ := List.getElem?_eq_some.mp hi
    exact hget ▸ List.getElem_mem hlen
  refine ⟨prop_name_self d hnd c hc, fun huniq => ?_⟩
  rw [lookupFrom_prim]
  exact mapGet_value_self d c hc huniq

/-- The unconditional accessor identity is exercised on `dupDef`'s two
shared-value cases, the guarded `from` identity on `statusDef`. -/
theorem claim_C1_identity_witness :
    (createBackedEnum dupDef).prop "A" = some ⟨0, "A", .num 1⟩ ∧
    (createBackedEnum dupDef).prop "B" = some ⟨1, "B", .num 1⟩ ∧
    (createBackedEnum statusDef).prop "PENDING" = some ⟨0, "PENDING", .str "pending"⟩ ∧
    (createBackedEnum statusDef).lookupFrom (.prim (.str "pending")) =
      some ⟨0, "PENDING", .str "pending"⟩ := by
  have ha := claim_C1_identity dupDef (by decide) 0 ⟨0, "A", .num 1⟩ (by decide)
  have hb := claim_C1_identity dupDef (by decide) 1 ⟨1, "B", .num 1⟩ (by decide)
  have hp := claim_C1_identity statusDef (by decide) 0 ⟨0, "PENDING", .str "pending"⟩
    (by decide)
  exact ⟨ha.1, hb.1, hp.1, hp.2 (by decide)⟩

/-- C2: `from` first re-dispatches a case instance on its `value`, and for
every case instance `c` in `collection.cases` whose backing value no other
case shares, `collection.from(c)` is `c` itself (idempotent lookup). -/
theorem claim_C2_idempotent (d : EnumDef) (c : CaseInstance)
    (hc : c ∈ (createBackedEnum d).cases)
    (huniq : ∀ x ∈ (createBackedEnum d).cases, x.value = c.value → x = c) :
    (createBackedEnum d).lookupFrom (.inst c) =
      (createBackedEnum d).lookupFrom (.prim c.value) ∧
    (createBackedEnum d).lookupFrom (.inst c) = some c := by
  refine ⟨lookupFrom_inst _ c, ?_⟩
  rw [lookupFrom_inst, lookupFrom_prim]
  exact mapGet_value_self d c hc huniq

theorem claim_C2_idempotent_witness :
    (createBackedEnum statusDef).lookupFrom (.inst ⟨1, "ACTIVE", .str "active"⟩) =
      some ⟨1, "ACTIVE", .str "active"⟩ :=
  (claim_C2_idempotent statusDef ⟨1, "ACTIVE", .str "active"⟩ (by decide) (by decide)).2

/-- C3: an input whose runtime kind is neither string nor number nor a case
instance (null, undefined, plain object, function, boolean) makes `from`
return undefined. `lookupFrom` is a total Lean function into `Option`, so a
miss and a type mismatch are both the absent value — never an exception. -/
theorem claim_C3_type_guard (e : BackedEnum) (c : Candidate)
    (h : c.isOtherKind = true) : e.lookupFrom c = none :=
  lookupFrom_other e c h

theorem claim_C3_type_guard_witness :
    (createBackedEnum roleDef).lookupFrom .nullV = none ∧
    (createBackedEnum roleDef).lookupFrom .undef = none ∧
    (createBackedEnum roleDef).lookupFrom .objV = none ∧
    (createBackedEnum roleDef).lookupFrom .funcV = none ∧
    (createBackedEnum roleDef).lookupFrom (.boolV true) = none :=
  ⟨claim_C3_type_guard _ .nullV (by decide), claim_C3_type_guard _ .undef (by decide),
   claim_C3_type_guard _ .objV (by decide), claim_C3_type_guard _ .funcV (by decide),
   claim_C3_type_guard _ (.boolV true) (by decide)⟩

/-- C4: on a string or number candidate, `from` is exactly the reverse-index
lookup; any hit has backing value equal (as a tagged string-or-number value,
so never across the string/number divide and never up to case folding) to
the candidate and lies in `cases`; a reverse-index miss yields undefined. -/
theorem claim_C4_exact_match (d : EnumDef) (v : Value) :
    (createBackedEnum d).lookupFrom (.prim v) = mapGet (createBackedEnum d).map v ∧
    (∀ c, (createBackedEnum d).lookupFrom (.prim v) = some c →
      c.value = v ∧ c ∈ (createBackedEnum d).cases) ∧
    (mapGet (createBackedEnum d).map v = none →
      (createBackedEnum d).lookupFrom (.prim v) = none) := by
  refine ⟨lookupFrom_prim _ v, ?_, ?_⟩
  · intro c hc
    rw [lookupFrom_prim, createBackedEnum_mapGet] at hc
    have h1 := List.find?_some hc
    have h2 := List.mem_of_find?_eq_some hc
    exact ⟨by simpa using h1, by simpa using h2⟩
  · intro h
    rw [lookupFrom_prim, h]

theorem claim_C4_exact_match_witness :
    (createBackedEnum statusDef).lookupFrom (.prim (.str "ACTIVE")) = none ∧
    (createBackedEnum roleDef).lookupFrom (.prim (.str "1")) = none :=
  ⟨(claim_C4_exact_match statusDef (.str "ACTIVE")).2.2 (by decide),
   (claim_C4_exact_match roleDef (.str "1")).2.2 (by decide)⟩

/-- C5: `cases` holds exactly one instance per filtered case-name and its
name sequence equals the filtered keys in the definition's own iteration
order. -/
theorem claim_C5_order_preservation (d : EnumDef) :
    (createBackedEnum d).cases.length = ((d.map Prod.fst).filter keyIsNaN).length ∧
    (createBackedEnum d).cases.map (fun c => c.name) =
      (d.map Prod.fst).filter keyIsNaN := by
  constructor
  · rw [createBackedEnum_cases, mkCases_length, ← filteredEntries_map_fst,
      List.length_map]
  · rw [createBackedEnum_cases, mkCases_names, filteredEntries_map_fst]

/-- C6: `values()` is the element-for-element projection of `cases` to their
backing values, undeduplicated: each value occurs as many times as there are
cases carrying it. -/
theorem claim_C6_values_projection (d : EnumDef) :
    (createBackedEnum d).values = (createBackedEnum d).cases.map (fun c => c.value) ∧
    ∀ v : Value, (createBackedEnum d).values.count v =
      ((createBackedEnum d).cases.filter (fun c => c.value == v)).length := by
  refine ⟨rfl, fun v => ?_⟩
  rw [BackedEnum.values, List.count_eq_countP, List.countP_map,
    ← List.countP_eq_length_filter]
  rfl

/-- C7: with two case-names sharing one backing value, construction still
succeeds (the builder is total) and the reverse index binds each value to the
*last* case in iteration order carrying it, while every case stays reachable
through its named accessor and through `cases`. -/
theorem claim_C7_last_write_wins (d : EnumDef) (hnd : (d.map Prod.fst).Nodup)
    (v : Value) :
    mapGet (createBackedEnum d).map v =
      (createBackedEnum d).cases.reverse.find? (fun c => c.value == v) ∧
    ∀ c ∈ (createBackedEnum d).cases, (createBackedEnum d).prop c.name = some c :=
  ⟨createBackedEnum_mapGet d v, fun c hc => prop_name_self d hnd c hc⟩

theorem claim_C7_last_write_wins_witness :
    mapGet (createBackedEnum dupDef).map (.num 1) = some ⟨1, "B", .num 1⟩ ∧
    (createBackedEnum dupDef).prop "A" = some ⟨0, "A", .num 1⟩ ∧
    (createBackedEnum dupDef).prop "B" = some ⟨1, "B", .num 1⟩ := by
  have h := claim_C7_last_write_wins dupDef (by decide) (.num 1)
  exact ⟨by rw [h.1]; decide, h.2 ⟨0, "A", .num 1⟩ (by decide),
    h.2 ⟨1, "B", .num 1⟩ (by decide)⟩

/-- C8: construction keeps exactly the keys on which `isNaN(Number(key))`
holds; a key that parses as a number (a synthetic reverse entry of a numeric
enumeration) contributes no case, no named accessor, and no reverse-index
entry. -/
theorem claim_C8_numeric_filter (d : EnumDef) :
    (createBackedEnum d).cases.map (fun c => c.name) =
      (d.map Prod.fst).filter keyIsNaN ∧
    ∀ k : String, keyIsNaN k = false →
      (∀ c ∈ (createBackedEnum d).cases, c.name ≠ k) ∧
      (createBackedEnum d).prop k = none ∧
      ∀ v c, mapGet (createBackedEnum d).map v = some c → c.name ≠ k := by
  have hnames := cases_names_eq_filtered d
  have hkept : ∀ c ∈ (createBackedEnum d).cases, keyIsNaN c.name = true := by
    intro c hc
    have : c.name ∈ (d.map Prod.fst).filter keyIsNaN := by
      rw [← hnames]
      exact List.mem_map_of_mem _ hc
    exact List.of_mem_filter this
  refine ⟨hnames, fun k hk => ⟨?_, ?_, ?_⟩⟩
  · intro c hc hck
    have := hkept c hc
    rw [hck, hk] at this
    cases this
  · rw [prop_eq_find]
    rw [List.find?_eq_none]
    intro c hc hck
    have := hkept c hc
    rw [show c.name = k from by simpa using hck, hk] at this
    cases this
  · intro v c hmc hck
    rw [createBackedEnum_mapGet] at hmc
    have hc : c ∈ (createBackedEnum d).cases := by
      simpa using List.mem_of_find?_eq_some hmc
    have := hkept c hc
    rw [hck, hk] at this
    cases this

theorem claim_C8_numeric_filter_witness :
    (createBackedEnum roleDef).cases.map (fun c => c.name) = ["ADMIN", "USER", "GUEST"] ∧
    (createBackedEnum roleDef).prop "1" = none := by
  have h := claim_C8_numeric_filter roleDef
  exact ⟨by rw [h.1]; decide, (h.2 "1" (by decide)).2.1⟩

/-! ### Trait composition (`createEnumCase`)

`createEnumCase(...traits)` in src/index.ts is `withTraits(EnumCase, ...traits)`.
A composed type is modelled by its method dispatch table. -/

/-- A method dispatch table: method name → implementation (implementations
stay abstract in `α`). -/
abbrev MethodTable (α : Type) := List (String × α)

/-- Install one method: replace the current entry of that name or append. -/
def tableSet {α : Type} (t : MethodTable α) (k : String) (v : α) : MethodTable α :=
  match t with
  | [] => [(k, v)]
  | (k', v') :: rest => if k' = k then (k, v) :: rest else (k', v') :: tableSet rest k v

/-- Copy/override every entry of module `m` onto `t`, in `m`'s own order. -/
def applyModule {α : Type} (t m : MethodTable α) : MethodTable α :=
  m.foldl (fun acc kv => tableSet acc kv.1 kv.2) t

/-- Modelled from the spec: the generic trait-merging primitive `withTraits`
from the external package `@daniloivk/ts-traits` (not part of this
repository). Per §4.1/§9: the composed type's dispatch table is assembled by
copying/overriding entries from each module in supplied order onto a table
seeded with the base contract's methods, so the module appearing last wins. -/
def withTraits {α : Type} (base : MethodTable α) (modules : List (MethodTable α)) :
    MethodTable α :=
  modules.foldl applyModule base

/-- `EnumCase`'s own dispatch table (at `α := String`, implementations are
labelled by their source): the default `toString` returning `String(this.value)`. -/
def enumCaseMethods : MethodTable String := [("toString", "String(this.value)")]

/-- `createEnumCase(...traits)`: `withTraits(EnumCase, ...traits)`. -/
def createEnumCase (traits : List (MethodTable String)) : MethodTable String :=
  withTraits enumCaseMethods traits

/-- Method dispatch on a composed type. -/
def methodOf {α : Type} (t : MethodTable α) (f : String) : Option α :=
  t.lookup f

/-- The implementation a module itself supplies for a method name: its last
entry of that name (a class body keeps the last definition of a duplicated
member). -/
def moduleDef {α : Type} (m : MethodTable α) (f : String) : Option α :=
  (m.reverse.find? (fun kv => kv.1 == f)).map Prod.snd

theorem lookup_tableSet {α : Type} (t : MethodTable α) (k f : String) (v : α) :
    (tableSet t k v).lookup f = if f = k then some v else t.lookup f := by
  induction t with
  | nil =>
    by_cases h : f = k
    · simp [tableSet, List.lookup, h]
    · have hb : (f == k) = false := by simp [h]
      simp [tableSet, List.lookup, hb, h]
  | cons kv rest ih =>
    obtain ⟨k', v'⟩ := kv
    by_cases h1 : k' = k
    · subst h1
      by_cases h2 : f = k'
      · simp [tableSet, List.lookup, h2]
      · have hb : (f == k') = false := by simp [h2]
        simp [tableSet, List.lookup, hb, h2]
    · by_cases h2 : f = k'
      · subst h2
        simp [tableSet, h1, List.lookup]
      · have hb : (f == k') = false := by simp [h2]
        simp [tableSet, h1, List.lookup, hb, ih]

theorem methodOf_applyModule {α : Type} (t m : MethodTable α) (f : String) :
    methodOf (applyModule t m) f = optOr (moduleDef m f) (methodOf t f) := by
  rw [moduleDef]
  induction m generalizing t with
  | nil => simp [applyModule, optOr]
  | cons kv rest ih =>
    obtain ⟨k, v⟩ := kv
    simp only [applyModule, List.foldl_cons, List.reverse_cons, List.find?_append]
    rw [show List.foldl (fun acc kv => tableSet acc kv.1 kv.2) (tableSet t k v) rest =
      applyModule (tableSet t k v) rest from rfl, ih]
    cases hf : rest.reverse.find? (fun kv => kv.1 == f) with
    | some kv' => simp [optOr]
    | none =>
      by_cases hk : k = f
      · simp [optOr, List.find?, hk, methodOf, lookup_tableSet]
      · have hb : (k == f) = false := by simp [hk]
        simp only [optOr, List.find?, hb, methodOf, lookup_tableSet]
        simp [Ne.symm hk]

/-- C9: trait composition is deterministic by supplied order, last wins:
with `M1` and `M2` both defining `f`, `createEnumCase [M1, M2]` dispatches
`f` to `M2`'s implementation and `createEnumCase [M2, M1]` to `M1`'s; a
single module's `f` likewise overrides any same-named method of the base
case (in particular the base `toString`). -/
theorem claim_C9_trait_composition (M1 M2 : MethodTable String) (f : String)
    (b1 b2 : String) (h1 : moduleDef M1 f = some b1) (h2 : moduleDef M2 f = some b2) :
    methodOf (createEnumCase [M1, M2]) f = some b2 ∧
    methodOf (createEnumCase [M2, M1]) f = some b1 ∧
    methodOf (createEnumCase [M1]) f = some b1 := by
  simp [createEnumCase, withTraits, methodOf_applyModule, h1, h2, optOr]

theorem claim_C9_trait_composition_witness :
    methodOf (createEnumCase [[("f", "M1.f")], [("f", "M2.f")]]) "f" = some "M2.f" ∧
    methodOf (createEnumCase [[("f", "M2.f")], [("f", "M1.f")]]) "f" = some "M1.f" ∧
    methodOf (createEnumCase [[("toString", "this.name")]]) "toString" =
      some "this.name" := by
  have ha := claim_C9_trait_composition [("f", "M1.f")] [("f", "M2.f")] "f"
    "M1.f" "M2.f" (by decide) (by decide)
  have hb := claim_C9_trait_composition [("toString", "this.name")]
    [("toString", "this.name")] "toString" "this.name" "this.name"
    (by decide) (by decide)
  exact ⟨ha.1, ha.2.1, hb.2.2⟩

/-- C10: the compiled build's `from` (dist/index.js: a bare `map.get`) is not
extensionally equal to the source's `from`. At the failing input — the
collection built from `RoleEnum` and the candidate `collection.ADMIN`, a case
instance — the source `from` recurses on the instance's backing value and
returns the ADMIN case, while the dist `from` returns undefined (a `Map.get`
keyed by an object reference that is not among the primitive keys). The two
do agree on all string/number candidates and on all other-kind candidates.
The repository's README ("`Role.from(Role.ADMIN)` returns `Role.ADMIN`") and
its test "Should handle recursive instance lookups (Idempotency)" document
the source behaviour, so the dist file is the slip. -/
theorem claim_C10_dist_divergence :
    (createBackedEnum roleDef).lookupFrom (.inst ⟨0, "ADMIN", .num 1⟩) =
      some ⟨0, "ADMIN", .num 1⟩ ∧
    (createBackedEnum roleDef).lookupFromDist (.inst ⟨0, "ADMIN", .num 1⟩) = none ∧
    (∀ v : Value, (createBackedEnum roleDef).lookupFromDist (.prim v) =
      (createBackedEnum roleDef).lookupFrom (.prim v)) ∧
    ∀ c : Candidate, c.isOtherKind = true →
      (createBackedEnum roleDef).lookupFromDist c =
        (createBackedEnum roleDef).lookupFrom c := by
  refine ⟨?_, rfl, fun v => ?_, fun c hc => ?_⟩
  · rw [lookupFrom_inst, lookupFrom_prim]
    decide
  · rw [lookupFrom_prim]
    rfl
  · rw [lookupFrom_other _ c hc]
    cases c <;> simp_all [BackedEnum.lookupFromDist, Candidate.isOtherKind]

end TsBackedEnum
